import Mathlib

/-!
Verification of the hubuum-cli command shell core: the shell-style lexer,
the command tokenizer (src/tokenizer.rs), the command-tree dispatcher and
the batch REPL driver (src/main.rs).  Rust strings are modelled as Lean
`String`, `HashMap<String, String>` as an association list with
replace-on-insert semantics, fallible operations as `Except`, and the
ambient effects (file system, HTTP) as an explicit environment record.
-/

/-- The error type of the application, following the variants of
`AppError` in src/errors.rs that the shell core can produce.  Payloads
that are opaque to the core (io::Error, reqwest errors) are modelled as
their display strings. -/
inductive AppError where
  | commandNotFound (msg : String)
  | parseError (msg : String)
  | invalidInput
  | ioError (msg : String)
  | httpError (msg : String)
  | entityNotFound (msg : String)
  | apiError (msg : String)
  | quiet
deriving Repr, DecidableEq, Inhabited

/-- Display strings of the error variants, following the `#[error(...)]`
attributes in src/errors.rs. -/
def AppError.message : AppError → String
  | .commandNotFound s => "Command not found: " ++ s
  | .parseError s => "Error parsing arguments: " ++ s
  | .invalidInput => "Invalid input"
  | .ioError s => "IO error: " ++ s
  | .httpError s => "HTTP Error: " ++ s
  | .entityNotFound s => "Entity not found: " ++ s
  | .apiError s => "API error: " ++ s
  | .quiet => "Quiet error"

/-- The ambient effect environment: `fs path` models
`std::fs::read_to_string(path)` and `http url` models
`reqwest::blocking::get(url)?.text()`, each returning the contents/body
or an error display string. -/
structure Env where
  fs : String → Except String String
  http : String → Except String String

/-- Rust `str::starts_with`: the pattern is a character-list prefix of
the string. -/
def strStarts (s pat : String) : Bool :=
  pat.data.isPrefixOf s.data

/-- Drop the first `n` characters of a string; models the residue of a
successful `str::strip_prefix` whose pattern has length `n`. -/
def strDrop (s : String) (n : Nat) : String :=
  ⟨s.data.drop n⟩

/-- Rust `str::trim_end`: remove trailing whitespace characters. -/
def trimEnd (s : String) : String :=
  ⟨(s.data.reverse.dropWhile Char.isWhitespace).reverse⟩

/-- `HashMap::insert` on an association list: if the key is present its
value is replaced in place, otherwise the binding is appended. -/
def insertOpt : List (String × String) → String → String → List (String × String)
  | [], k, v => [(k, v)]
  | (k0, v0) :: rest, k, v =>
    if k0 == k then (k0, v) :: rest else (k0, v0) :: insertOpt rest k v

/-- `HashMap::contains_key` on the association-list model. -/
def containsKey (m : List (String × String)) (k : String) : Bool :=
  (m.lookup k).isSome

/-- The double-quote character. -/
def dquote : Char := Char.ofNat 34

/-- The single-quote character. -/
def squote : Char := Char.ofNat 39

/-- The backslash character. -/
def bslash : Char := '\\'

/-- The backtick character. -/
def btick : Char := Char.ofNat 96

/-- Word-splitting whitespace of the lexer. -/
def isSpaceChar (c : Char) : Bool :=
  c == ' ' || c == '\t' || c == '\n'

/-- Lexing mode: outside quotes, inside single quotes, inside double
quotes, and the states right after a backslash outside quotes or inside
double quotes. -/
inductive LexMode where
  | norm
  | insingle
  | indouble
  | escnorm
  | escdouble
deriving Repr, DecidableEq

/-- Close the current word in front of the tokens of the rest of the
line, propagating a failed lex. -/
def emitWord (w : List Char) : Option (List String) → Option (List String)
  | none => none
  | some ts => some (String.mk w :: ts)

/-- Modelled from the spec: the Lexer (the source delegates to the
external shlex crate, which is not part of this repository).  Splits on
whitespace outside quotes; supports single and double quoting and
backslash escaping, shell-style: a backslash outside quotes makes the
next character literal, single-quoted text is literal until the closing
quote, and inside double quotes a backslash escapes the double quote,
the backslash, the dollar sign and the backtick.  An unterminated quote
or a dangling escape fails (`none`).  `inW` records whether a word is
open, `w` its characters so far. -/
def lexAux : LexMode → List Char → Bool → List Char → Option (List String)
  | .norm, [], inW, w => if inW then some [String.mk w] else some []
  | .insingle, [], _, _ => none
  | .indouble, [], _, _ => none
  | .escnorm, [], _, _ => none
  | .escdouble, [], _, _ => none
  | .norm, c :: cs, inW, w =>
    if isSpaceChar c then
      if inW then emitWord w (lexAux .norm cs false [])
      else lexAux .norm cs false []
    else if c == bslash then lexAux .escnorm cs true w
    else if c == squote then lexAux .insingle cs true w
    else if c == dquote then lexAux .indouble cs true w
    else lexAux .norm cs true (w ++ [c])
  | .escnorm, d :: cs, inW, w => lexAux .norm cs inW (w ++ [d])
  | .insingle, c :: cs, inW, w =>
    if c == squote then lexAux .norm cs inW w
    else lexAux .insingle cs inW (w ++ [c])
  | .indouble, c :: cs, inW, w =>
    if c == dquote then lexAux .norm cs inW w
    else if c == bslash then lexAux .escdouble cs inW w
    else lexAux .indouble cs inW (w ++ [c])
  | .escdouble, d :: cs, inW, w =>
    if d == dquote || d == bslash || d == '$' || d == btick then
      lexAux .indouble cs inW (w ++ [d])
    else lexAux .indouble cs inW (w ++ [bslash, d])

/-- Modelled from the spec: `shlex::split` — lex a raw line into word
tokens, `none` on malformed quoting/escaping. -/
def lex (s : String) : Option (List String) :=
  lexAux .norm s.data false []

/-- Join tokens with single spaces; models `Vec::join(" ")` and the
rejoining step of the lex round-trip property. -/
def rejoin : List String → String
  | [] => ""
  | [t] => t
  | t :: ts => t ++ " " ++ rejoin ts

/-- The tokenizer state/result, following `struct CommandTokenizer` in
src/tokenizer.rs.  `options` is the association-list model of the
`HashMap<String, String>`. -/
structure CommandTokenizer where
  scopes : List String
  command : String
  options : List (String × String)
  positionals : List String
deriving Repr, DecidableEq

/-- The initial tokenizer state built at the top of
`CommandTokenizer::new`. -/
def initTokenizer : CommandTokenizer :=
  { scopes := [], command := "", options := [], positionals := [] }

/-- `CommandTokenizer::convert_file_and_http_values`: dereference an
option value.  `http://`/`https://` values are fetched and the body
trimmed at the end; `file://` values are read from disk (prefix of
length 7 stripped) and trimmed at the end; anything else is returned
unchanged. -/
def convertFileAndHttpValues (env : Env) (value : String) : Except AppError String :=
  if strStarts value "http://" || strStarts value "https://" then
    match env.http value with
    | .error e => .error (.httpError e)
    | .ok body => .ok (trimEnd body)
  else if strStarts value "file://" then
    match env.fs (strDrop value 7) with
    | .error e => .error (.ioError e)
    | .ok contents => .ok (trimEnd contents)
  else .ok value

/-- `CommandTokenizer::parse_options`: `key` is the current token, `nxt`
the next token of the iterator if any.  A `--`-key is stripped of two
dashes, a `-`-key of one; the next token (or `""` when the iterator is
exhausted) is resolved and inserted; a key with no dash prefix is
`AppError::InvalidInput`.  On success exactly one following token has
been consumed when available. -/
def parseOption (env : Env) (t : CommandTokenizer) (key : String) (nxt : Option String) :
    Except AppError CommandTokenizer :=
  if strStarts key "--" then
    match convertFileAndHttpValues env (nxt.getD "") with
    | .error e => .error e
    | .ok v => .ok { t with options := insertOpt t.options (strDrop key 2) v }
  else if strStarts key "-" then
    match convertFileAndHttpValues env (nxt.getD "") with
    | .error e => .error e
    | .ok v => .ok { t with options := insertOpt t.options (strDrop key 1) v }
  else .error .invalidInput

/-- The first loop of `CommandTokenizer::new` ("Parse scopes and
command"): a token equal to `cmdName` becomes the command; a
`-`-prefixed token before the command is `InvalidInput`, after it the
loop parses one option and breaks, returning the unconsumed tokens; any
other token is a scope (before the command) or a positional (after
it). -/
def scanTokens (env : Env) (cmdName : String) :
    CommandTokenizer → List String → Except AppError (CommandTokenizer × List String)
  | t, [] => .ok (t, [])
  | t, token :: rest =>
    if token == cmdName then
      scanTokens env cmdName { t with command := token } rest
    else if strStarts token "-" then
      if t.command == "" then .error .invalidInput
      else
        match parseOption env t token rest.head? with
        | .error e => .error e
        | .ok t' => .ok (t', rest.tail)
    else if t.command == "" then
      scanTokens env cmdName { t with scopes := t.scopes ++ [token] } rest
    else
      scanTokens env cmdName { t with positionals := t.positionals ++ [token] } rest

/-- The second loop of `CommandTokenizer::new` ("Parse remaining
options"): every remaining token must start an option, consuming the
token after it as value. -/
def optionsLoop (env : Env) : CommandTokenizer → List String → Except AppError CommandTokenizer
  | t, [] => .ok t
  | t, [key] => parseOption env t key none
  | t, key :: v :: rest =>
    match parseOption env t key (some v) with
    | .error e => .error e
    | .ok t' => optionsLoop env t' rest

/-- The token-processing phase of `CommandTokenizer::new`, applied to
the already-lexed words. -/
def CommandTokenizer.fromTokens (env : Env) (tokens : List String) (cmdName : String) :
    Except AppError CommandTokenizer :=
  match scanTokens env cmdName initTokenizer tokens with
  | .error e => .error e
  | .ok (t, rest) => optionsLoop env t rest

/-- `CommandTokenizer::new(input, cmd_name)`: lex the line (a failed lex
is `InvalidInput`), then run the two token-processing loops. -/
def CommandTokenizer.new (env : Env) (input : String) (cmdName : String) :
    Except AppError CommandTokenizer :=
  match lex input with
  | none => .error .invalidInput
  | some tokens => CommandTokenizer.fromTokens env tokens cmdName

/-- A command entry: the execution contract of a `Box<dyn CliCommand>`
leaf.  Execution may consult the environment and the parsed tokens and
reports success or a typed error. -/
structure CliCommandEntry where
  execute : Env → CommandTokenizer → Except AppError Unit

/-- Modelled from the spec: the command tree node (the `CommandList`
type lives in src/commandlist.rs, which is not part of the provided
sources).  A scope owns a mapping from child scope name to child scope
and a mapping from command name to command entry. -/
inductive CommandList where
  | node : List (String × CommandList) → List (String × CliCommandEntry) → CommandList

/-- Modelled from the spec: `CommandList::get_scope` — look up a child
scope by name. -/
def CommandList.getScope : CommandList → String → Option CommandList
  | .node scopes _, name => scopes.lookup name

/-- Modelled from the spec: `CommandList::get_command` — look up a child
command by name. -/
def CommandList.getCommand : CommandList → String → Option CliCommandEntry
  | .node _ cmds, name => cmds.lookup name

/-- `find_command` in src/main.rs: walk the parts left to right; a part
naming a child scope is consumed into the context and the walk descends;
a part naming a child command stops the walk with the match; any other
part is `CommandNotFound` with a message naming it.  Exhausting the
parts yields no command.  The matched entry and its name are set
together in the source, so they are modelled as one optional pair. -/
def findCommand (cli : CommandList) :
    List String → List String → Except AppError (Option (CliCommandEntry × String) × List String)
  | [], context => .ok (none, context)
  | part :: rest, context =>
    match cli.getScope part with
    | some scope => findCommand scope rest (context ++ [part])
    | none =>
      match cli.getCommand part with
      | some cmd => .ok (some (cmd, part), context)
      | none => .error (.commandNotFound ("Command not found: " ++ part))

/-- Modelled from the spec: the help/usage rendering of a command
(provided by the derive macro in the external cli_command_derive crate)
renders help and returns success. -/
def helpRender (_cmdName : String) (_context : List String) : Except AppError Unit :=
  .ok ()

/-- `execute_command` in src/main.rs: tokenize the full line against the
resolved command name; if the option map holds a "help" or "h" key run
the help rendering, otherwise run the command's execution contract. -/
def executeCommand (env : Env) (cmd : CliCommandEntry) (cmdName : String) (line : String)
    (context : List String) : Except AppError Unit :=
  match CommandTokenizer.new env line cmdName with
  | .error e => .error e
  | .ok tokens =>
    if containsKey tokens.options "help" || containsKey tokens.options "h" then
      helpRender cmdName context
    else
      cmd.execute env tokens

/-- The REPL output collaborator state.  Modelled from the spec: the
output module (src/output.rs) is not part of the provided sources; it
holds an optional output filter, a per-line message buffer, and the
messages already shown to the user. -/
structure OutputState where
  filter : Option (String × Bool)
  buffer : List String
  displayed : List String
deriving Repr, DecidableEq

/-- Modelled from the spec: `output::set_filter` stores the pattern and
the invert flag. -/
def setFilter (st : OutputState) (pat : String) (invert : Bool) : OutputState :=
  { st with filter := some (pat, invert) }

/-- Modelled from the spec: `output::clear_filter` drops any stored
filter. -/
def clearFilter (st : OutputState) : OutputState :=
  { st with filter := none }

/-- Modelled from the spec: `output::add_warning` buffers a
warning-level message. -/
def addWarning (st : OutputState) (msg : String) : OutputState :=
  { st with buffer := st.buffer ++ [msg] }

/-- Modelled from the spec: `output::add_error` buffers an error-level
message. -/
def addError (st : OutputState) (msg : String) : OutputState :=
  { st with buffer := st.buffer ++ [msg] }

/-- Modelled from the spec: `output::flush_output` shows and clears the
per-line buffer. -/
def flushOutput (st : OutputState) : OutputState :=
  { st with buffer := [], displayed := st.displayed ++ st.buffer }

/-- The invert flag of a filter suffix: a leading exclamation mark. -/
def filterInvert (f : String) : Bool :=
  strStarts f "!"

/-- The pattern of a filter suffix: with a leading exclamation mark the
trimmed remainder, otherwise the trimmed suffix itself. -/
def filterPattern (f : String) : String :=
  if strStarts f "!" then (strDrop f 1).trim else f.trim

/-- `process_filter` in src/main.rs: split the line on the pipe
character; with a suffix present, the trimmed suffix determines the
filter (a leading exclamation mark selects an inverted filter), the
pattern is stored in the output collaborator and the trimmed part before
the pipe is returned; otherwise the filter is cleared and the line
returned whole. -/
def processFilter (line : String) (st : OutputState) : Except AppError (String × OutputState) :=
  if ((line.splitOn "|").length > 1 : Bool) then
    .ok (((line.splitOn "|").getD 0 "").trim,
      setFilter st (filterPattern (((line.splitOn "|").getD 1 "").trim))
        (filterInvert (((line.splitOn "|").getD 1 "").trim)))
  else
    .ok (line, clearFilter st)

/-- `handle_command` in src/main.rs: lex the line (failure is a
`ParseError`), an empty token list is a success no-op, otherwise resolve
through the tree; a resolved command is executed (the timing wrapper is
observability only), an exhausted walk buffers a command-not-found
warning with the joined parts. -/
def handleCommand (env : Env) (cli : CommandList) (line : String) (st : OutputState) :
    Except AppError OutputState :=
  match lex line with
  | none => .error (.parseError "Parsing input failed")
  | some parts =>
    if parts.isEmpty then .ok st
    else
      match findCommand cli parts [] with
      | .error e => .error e
      | .ok (some (cmd, cmdName), context) =>
        match executeCommand env cmd cmdName line context with
        | .ok _ => .ok st
        | .error e => .error e
      | .ok (none, _) => .ok (addWarning st ("Command not found: " ++ rejoin parts))

/-- `process_line_as_command` in src/main.rs: extract the filter suffix,
run the command, convert every per-line error into a buffered message
(`Quiet` is silent, `EntityNotFound` a warning, API errors and the
catch-all use `add_error`), and flush the output buffer. -/
def processLineAsCommand (env : Env) (cli : CommandList) (line : String) (st : OutputState) :
    Except AppError OutputState :=
  match processFilter line st with
  | .error e => .error e
  | .ok (line2, st1) =>
    let st2 :=
      match handleCommand env cli line2 st1 with
      | .ok st' => st'
      | .error .quiet => st1
      | .error (.entityNotFound ent) => addWarning st1 ent
      | .error (.apiError s) => addError st1 ("API Error: " ++ s)
      | .error err => addError st1 err.message
    .ok (flushOutput st2)

/-- The state after one line of batch processing; by
`processLineAsCommand_ok` the error branch is never taken. -/
def processLineRun (env : Env) (cli : CommandList) (st : OutputState) (line : String) :
    OutputState :=
  match processLineAsCommand env cli line st with
  | .ok st' => st'
  | .error _ => st

/-- The line loop of `source_commands_from_file` in src/main.rs: each
line read from the reader either fails (the `line?` — an I/O error that
aborts the whole run) or is processed as a command. -/
def sourceLines (env : Env) (cli : CommandList) :
    List (Except String String) → OutputState → Except AppError OutputState
  | [], st => .ok st
  | l :: rest, st =>
    match l with
    | .error e => .error (.ioError e)
    | .ok line =>
      match processLineAsCommand env cli line st with
      | .error e => .error e
      | .ok st' => sourceLines env cli rest st'

/-- `source_commands_from_file` in src/main.rs: `file` models the result
of `File::open` (an I/O error aborts with `IoError`) together with the
per-line read results of the buffered reader. -/
def sourceCommandsFromFile (env : Env) (cli : CommandList)
    (file : Except String (List (Except String String))) (st : OutputState) :
    Except AppError OutputState :=
  match file with
  | .error e => .error (.ioError e)
  | .ok lines => sourceLines env cli lines st

/-- An environment with no reachable files and no network, for concrete
evaluations. -/
def emptyEnv : Env :=
  { fs := fun _ => .error "No such file or directory", http := fun _ => .error "no network" }

/-- An environment whose file system holds one file "p" containing
"hello" and a trailing newline. -/
def demoFsEnv : Env :=
  { fs := fun p => if p == "p" then .ok "hello\n" else .error "No such file or directory",
    http := fun _ => .error "no network" }

/-- A command entry whose execution succeeds. -/
def okEntry : CliCommandEntry :=
  { execute := fun _ _ => .ok () }

/-- A command entry whose execution fails, to observe that help
rendering bypasses execution. -/
def failEntry : CliCommandEntry :=
  { execute := fun _ _ => .error (.apiError "execution reached") }

/-- The command tree of the spec example: a scope "ns" holding the
command "list", and a top-level command "status". -/
def demoTree : CommandList :=
  .node [("ns", .node [] [("list", okEntry)])] [("status", okEntry)]

/-- Characters with no lexical role: not whitespace, not a backslash,
not a quote. -/
def plainChar (c : Char) : Bool :=
  !(isSpaceChar c) && !(c == bslash) && !(c == squote) && !(c == dquote)

/-- Flatten a list of key/value pairs into the token stream they came
from. -/
def pairsFlatten : List (String × String) → List String
  | [] => []
  | p :: ps => p.1 :: p.2 :: pairsFlatten ps

/-! ### String and character helper lemmas -/

theorem strData_append (s t : String) : (s ++ t).data = s.data ++ t.data :=
  String.data_append s t

theorem isPrefixOf_single_of_double {c : Char} {l : List Char}
    (h : List.isPrefixOf [c, c] l = true) : List.isPrefixOf [c] l = true := by
  cases l with
  | nil => simp [List.isPrefixOf] at h
  | cons a as =>
    simp [List.isPrefixOf] at h ⊢
    exact h.1

theorem strStarts_dash_of_ddash {k : String} (h : strStarts k "--" = true) :
    strStarts k "-" = true := by
  unfold strStarts at h ⊢
  have h2 : "--".data = ['-', '-'] := rfl
  have h1 : "-".data = ['-'] := rfl
  rw [h2] at h
  rw [h1]
  exact isPrefixOf_single_of_double h

theorem strStarts_ddash_eq_false {k : String} (h : strStarts k "-" = false) :
    strStarts k "--" = false := by
  cases hdd : strStarts k "--" with
  | false => rfl
  | true => rw [strStarts_dash_of_ddash hdd] at h; cases h

theorem plainChar_spec {c : Char} (h : plainChar c = true) :
    isSpaceChar c = false ∧ (c == bslash) = false ∧ (c == squote) = false ∧
      (c == dquote) = false := by
  simp only [plainChar, Bool.and_eq_true, Bool.not_eq_true'] at h
  exact ⟨h.1.1.1, h.1.1.2, h.1.2, h.2⟩

/-! ### Lexer round-trip lemmas -/

theorem lexAux_plain_append (wl cs : List Char) (inW : Bool) (w : List Char)
    (h : ∀ c ∈ wl, plainChar c = true) :
    lexAux .norm (wl ++ cs) inW w = lexAux .norm cs (inW || !wl.isEmpty) (w ++ wl) := by
  induction wl generalizing inW w with
  | nil => simp
  | cons c cl ih =>
    have hc := plainChar_spec (h c (by simp))
    simp only [List.cons_append, lexAux, hc.1, hc.2.1, hc.2.2.1, hc.2.2.2,
      Bool.false_eq_true, if_false, List.append_eq]
    rw [ih _ _ (fun x hx => h x (by simp [hx]))]
    simp [List.append_assoc]

theorem lex_rejoin_plain (ts : List String)
    (h : ∀ t ∈ ts, t.data ≠ [] ∧ ∀ c ∈ t.data, plainChar c = true) :
    lex (rejoin ts) = some ts := by
  induction ts with
  | nil => rfl
  | cons t ts ih =>
    cases ts with
    | nil =>
      have ht := h t (by simp)
      show lexAux .norm t.data false [] = some [t]
      rw [← List.append_nil t.data, lexAux_plain_append t.data [] false [] ht.2]
      have hne : t.data.isEmpty = false := by
        cases hd : t.data with
        | nil => exact absurd hd ht.1
        | cons a as => rfl
      simp [lexAux, hne]
    | cons t2 ts2 =>
      have hdata : (rejoin (t :: t2 :: ts2)).data =
          t.data ++ (' ' :: (rejoin (t2 :: ts2)).data) := by
        show ((t ++ " ") ++ rejoin (t2 :: ts2)).data = _
        rw [strData_append, strData_append]
        simp
      have ht := h t (by simp)
      have hne : t.data.isEmpty = false := by
        cases hd : t.data with
        | nil => exact absurd hd ht.1
        | cons a as => rfl
      have hrest : lexAux .norm (rejoin (t2 :: ts2)).data false [] = some (t2 :: ts2) :=
        ih (fun x hx => h x (by simp [hx]))
      show lexAux .norm (rejoin (t :: t2 :: ts2)).data false [] = some (t :: t2 :: ts2)
      rw [hdata, lexAux_plain_append t.data _ false [] ht.2]
      simp [lexAux, isSpaceChar, hrest, hne, emitWord]

/-! ### Claim C2 -/

/-- C2: on the tree with scope "ns" (holding command "list") and command
"status", resolving ["ns", "list", "-n", "x"] consumes the scope path
["ns"] and matches command "list", whose line tokenizes with options
{n: x}; resolving ["status"] matches "status" with an empty scope path;
resolving ["bogus"] fails with CommandNotFound naming the token. -/
theorem c2_tree_resolution :
    findCommand demoTree ["ns", "list", "-n", "x"] [] = .ok (some (okEntry, "list"), ["ns"]) ∧
    CommandTokenizer.new emptyEnv "ns list -n x" "list" =
      .ok { scopes := ["ns"], command := "list", options := [("n", "x")], positionals := [] } ∧
    findCommand demoTree ["status"] [] = .ok (some (okEntry, "status"), []) ∧
    findCommand demoTree ["bogus"] [] = .error (.commandNotFound "Command not found: bogus") :=
  ⟨rfl, rfl, rfl, rfl⟩

/-! ### Claim C9 -/

/-- C9 (counterexample): the line consisting of "a b" in double quotes
lexes to the single token "a b", but rejoining with single spaces and
re-lexing splits it into two tokens, so the round-trip property fails on
this balanced-quote input. -/
theorem c9_counterexample :
    lex "\x22a b\x22" = some ["a b"] ∧
    lex (rejoin ["a b"]) = some ["a", "b"] ∧
    some ["a", "b"] ≠ some ["a b"] :=
  ⟨rfl, rfl, by decide⟩

/-- C9 (amended): for every input line whose lexed tokens are all
nonempty and free of whitespace, quote and backslash characters,
rejoining the tokens with single spaces and lexing again yields the same
token sequence. -/
theorem c9_lex_rejoin_roundtrip (s : String) (ts : List String)
    (_hlex : lex s = some ts)
    (hplain : ∀ t ∈ ts, t.data ≠ [] ∧ ∀ c ∈ t.data, plainChar c = true) :
    lex (rejoin ts) = some ts :=
  lex_rejoin_plain ts hplain

/-- Witness for C9: the line "a b" lexes to ["a", "b"], and the theorem
applies to reproduce it from the rejoined line. -/
theorem c9_witness : lex "a b" = some ["a", "b"] ∧ lex (rejoin ["a", "b"]) = some ["a", "b"] :=
  ⟨rfl, c9_lex_rejoin_roundtrip "a b" ["a", "b"] rfl (by decide)⟩

/-! ### Claim C1 -/

/-- C1 (counterexample): the line "cmd --name a --name b" supplies the
option key "name" twice; tokenization does not reject it but succeeds,
silently resolving the key to the later value "b". -/
theorem c1_counterexample :
    CommandTokenizer.new emptyEnv "cmd --name a --name b" "cmd" =
      .ok { scopes := [], command := "cmd", options := [("name", "b")], positionals := [] } :=
  rfl

/-! ### Option-map and parseOption lemmas -/

theorem convert_empty (env : Env) : convertFileAndHttpValues env "" = .ok "" := rfl

theorem insertOpt_keys (m : List (String × String)) (k v : String) :
    (insertOpt m k v).map Prod.fst = m.map Prod.fst ∨
    (insertOpt m k v).map Prod.fst = m.map Prod.fst ++ [k] := by
  induction m with
  | nil => right; rfl
  | cons p rest ih =>
    obtain ⟨k0, v0⟩ := p
    by_cases h : k0 = k
    · left; simp [insertOpt, h]
    · have hb : (k0 == k) = false := beq_eq_false_iff_ne.mpr h
      rcases ih with he | he
      · left; simp [insertOpt, hb, he]
      · right; simp [insertOpt, hb, he]

theorem insertOpt_keys_nodup {m : List (String × String)} (k v : String)
    (h : (m.map Prod.fst).Nodup) : ((insertOpt m k v).map Prod.fst).Nodup := by
  induction m with
  | nil => simp [insertOpt]
  | cons p rest ih =>
    obtain ⟨k0, v0⟩ := p
    simp only [List.map_cons, List.nodup_cons] at h
    by_cases hk : k0 = k
    · simpa [insertOpt, hk] using h
    · have hb : (k0 == k) = false := beq_eq_false_iff_ne.mpr hk
      have hrec := ih h.2
      rcases insertOpt_keys rest k v with he | he
      · simp only [insertOpt, hb, Bool.false_eq_true, if_false, List.map_cons,
          List.nodup_cons, he]
        exact ⟨h.1, he ▸ hrec⟩
      · simp only [insertOpt, hb, Bool.false_eq_true, if_false, List.map_cons,
          List.nodup_cons, he]
        constructor
        · intro hmem
          rcases List.mem_append.mp hmem with hm | hm
          · exact h.1 hm
          · exact hk (List.mem_singleton.mp hm)
        · exact he ▸ hrec

theorem insertOpt_mem {m : List (String × String)} {k v : String} {p : String × String}
    (h : p ∈ insertOpt m k v) : p ∈ m ∨ p.2 = v := by
  induction m with
  | nil =>
    simp [insertOpt] at h
    right; rw [h]
  | cons q rest ih =>
    obtain ⟨k0, v0⟩ := q
    by_cases hk : k0 = k
    · have hb : (k0 == k) = true := beq_iff_eq.mpr hk
      simp only [insertOpt, hb, if_true] at h
      rcases List.mem_cons.mp h with he | hm
      · right; rw [he]
      · left; exact List.mem_cons_of_mem _ hm
    · have hb : (k0 == k) = false := beq_eq_false_iff_ne.mpr hk
      simp only [insertOpt, hb, Bool.false_eq_true, if_false] at h
      rcases List.mem_cons.mp h with he | hm
      · left; rw [he]; exact List.mem_cons_self _ _
      · rcases ih hm with hl | hr
        · left; exact List.mem_cons_of_mem _ hl
        · right; exact hr

theorem parseOption_fields {env : Env} {t : CommandTokenizer} {key : String}
    {nxt : Option String} {t' : CommandTokenizer}
    (h : parseOption env t key nxt = .ok t') :
    t'.scopes = t.scopes ∧ t'.command = t.command ∧ t'.positionals = t.positionals := by
  unfold parseOption at h
  split at h
  · split at h
    · exact Except.noConfusion h
    · injection h with h; subst h; exact ⟨rfl, rfl, rfl⟩
  · split at h
    · split at h
      · exact Except.noConfusion h
      · injection h with h; subst h; exact ⟨rfl, rfl, rfl⟩
    · exact Except.noConfusion h

theorem parseOption_nodup {env : Env} {t : CommandTokenizer} {key : String}
    {nxt : Option String} {t' : CommandTokenizer}
    (h : parseOption env t key nxt = .ok t')
    (hn : (t.options.map Prod.fst).Nodup) : (t'.options.map Prod.fst).Nodup := by
  unfold parseOption at h
  split at h
  · split at h
    · exact Except.noConfusion h
    · injection h with h; subst h; exact insertOpt_keys_nodup _ _ hn
  · split at h
    · split at h
      · exact Except.noConfusion h
      · injection h with h; subst h; exact insertOpt_keys_nodup _ _ hn
    · exact Except.noConfusion h

theorem parseOption_image {env : Env} {t : CommandTokenizer} {key : String}
    {nxt : Option String} {t' : CommandTokenizer}
    (h : parseOption env t key nxt = .ok t') :
    ∀ p ∈ t'.options, p ∈ t.options ∨
      ∃ raw, convertFileAndHttpValues env raw = .ok p.2 := by
  unfold parseOption at h
  split at h
  · split at h <;> rename_i heq
    · exact Except.noConfusion h
    · injection h with h; subst h
      intro p hp
      rcases insertOpt_mem hp with hm | hv
      · exact Or.inl hm
      · exact Or.inr ⟨nxt.getD "", by rw [heq, hv]⟩
  · split at h
    · split at h <;> rename_i heq
      · exact Except.noConfusion h
      · injection h with h; subst h
        intro p hp
        rcases insertOpt_mem hp with hm | hv
        · exact Or.inl hm
        · exact Or.inr ⟨nxt.getD "", by rw [heq, hv]⟩
    · exact Except.noConfusion h

/-! ### optionsLoop lemmas -/

theorem optionsLoop_inv (env : Env) :
    ∀ (t : CommandTokenizer) (tokens : List String) (t' : CommandTokenizer),
      optionsLoop env t tokens = .ok t' →
      t'.scopes = t.scopes ∧ t'.command = t.command ∧ t'.positionals = t.positionals ∧
      ((t.options.map Prod.fst).Nodup → (t'.options.map Prod.fst).Nodup) ∧
      (∀ p ∈ t'.options, p ∈ t.options ∨
        ∃ raw, convertFileAndHttpValues env raw = .ok p.2) := by
  intro t tokens
  induction t, tokens using optionsLoop.induct env with
  | case1 t =>
    intro t' h
    injection h with h; subst h
    exact ⟨rfl, rfl, rfl, id, fun p hp => Or.inl hp⟩
  | case2 t key =>
    intro t' h
    simp only [optionsLoop] at h
    exact ⟨(parseOption_fields h).1, (parseOption_fields h).2.1,
      (parseOption_fields h).2.2, parseOption_nodup h, parseOption_image h⟩
  | case3 t key v rest e hp =>
    intro t' h
    simp only [optionsLoop, hp] at h
    exact Except.noConfusion h
  | case4 t key v rest t1 hp ih =>
    intro t' h
    simp only [optionsLoop, hp] at h
    obtain ⟨hs, hc, hpos, hnd, him⟩ := ih t' h
    have hf := parseOption_fields hp
    refine ⟨hs.trans hf.1, hc.trans hf.2.1, hpos.trans hf.2.2, ?_, ?_⟩
    · exact fun hn => hnd (parseOption_nodup hp hn)
    · intro p hmem
      rcases him p hmem with hm | hr
      · exact parseOption_image hp p hm
      · exact Or.inr hr

/-! ### Claim C10 -/

theorem optionsLoop_bare_word (env : Env) :
    ∀ (pairs : List (String × String)) (w : String) (rest : List String)
      (t : CommandTokenizer),
      (∀ p ∈ pairs, strStarts p.1 "-" = true ∧
        ∃ rv, convertFileAndHttpValues env p.2 = .ok rv) →
      strStarts w "-" = false →
      optionsLoop env t (pairsFlatten pairs ++ w :: rest) = .error .invalidInput := by
  intro pairs
  induction pairs with
  | nil =>
    intro w rest t _ hw
    have hdd : strStarts w "--" = false := strStarts_ddash_eq_false hw
    have hpo : ∀ nxt, parseOption env t w nxt = .error .invalidInput := by
      intro nxt
      simp [parseOption, hdd, hw]
    cases rest with
    | nil => simpa only [pairsFlatten, List.nil_append, optionsLoop] using hpo none
    | cons r rs =>
      simp only [pairsFlatten, List.nil_append, optionsLoop, hpo (some r)]
  | cons q qs ih =>
    intro w rest t hp hw
    obtain ⟨k, v⟩ := q
    have hq := hp (k, v) (List.mem_cons_self _ _)
    obtain ⟨rv, hrv⟩ := hq.2
    have hok : ∃ t1, parseOption env t k (some v) = .ok t1 := by
      unfold parseOption
      by_cases hdd : strStarts k "--" = true
      · simp only [hdd, if_true, Option.getD_some, hrv]
        exact ⟨_, rfl⟩
      · simp only [hdd, Bool.false_eq_true, if_false, hq.1, if_true, Option.getD_some, hrv]
        exact ⟨_, rfl⟩
    obtain ⟨t1, ht1⟩ := hok
    simp only [pairsFlatten, List.cons_append, optionsLoop, ht1]
    exact ih w rest t1 (fun p hp2 => hp p (List.mem_cons_of_mem _ hp2)) hw

/-- C10: a bare word among the remaining tokens after the first option
key — one at a key position, not consumed as a preceding key's value —
makes tokenization fail with the invalid-input error (given that the
option pairs before it are well-formed and their values resolve), and
the options loop never appends positionals: after the first option, a
word is never added to the positional list. -/
theorem c10_bare_word_after_options :
    (∀ (env : Env) (t : CommandTokenizer) (pairs : List (String × String))
       (w : String) (rest : List String),
       (∀ p ∈ pairs, strStarts p.1 "-" = true ∧
         ∃ rv, convertFileAndHttpValues env p.2 = .ok rv) →
       strStarts w "-" = false →
       optionsLoop env t (pairsFlatten pairs ++ w :: rest) = .error .invalidInput) ∧
    (∀ (env : Env) (t : CommandTokenizer) (tokens : List String) (t' : CommandTokenizer),
       optionsLoop env t tokens = .ok t' → t'.positionals = t.positionals) :=
  ⟨fun env t pairs w rest hp hw => optionsLoop_bare_word env pairs w rest t hp hw,
   fun env t tokens t' h => (optionsLoop_inv env t tokens t' h).2.2.1⟩

/-- Witness for C10: after option "-a 1", the bare word "b" makes the
options loop fail with the invalid-input error. -/
theorem c10_witness :
    optionsLoop emptyEnv initTokenizer (pairsFlatten [("-a", "1")] ++ ["b"]) =
      .error .invalidInput ∧
    optionsLoop emptyEnv initTokenizer ["-a", "1"] = .ok
      { scopes := [], command := "", options := [("a", "1")], positionals := [] } :=
  ⟨c10_bare_word_after_options.1 emptyEnv initTokenizer [("-a", "1")] "b" []
    (by intro p hp
        rcases List.mem_singleton.mp hp with h
        rw [h]
        exact ⟨rfl, "1", rfl⟩)
    rfl,
   rfl⟩

/-! ### Claim C5 -/

/-- C5: after the command boundary an option key is stored with its
dash prefix stripped (two dashes for a long key, one for a short key)
and the immediately following word is its raw value, run through value
resolution; when the key is the last token its value is the empty
string and parsing the option still succeeds. -/
theorem c5_option_key_value :
    (∀ (env : Env) (t : CommandTokenizer) (key v : String), strStarts key "--" = true →
       parseOption env t key (some v) =
         (match convertFileAndHttpValues env v with
          | .error e => .error e
          | .ok rv => .ok { t with options := insertOpt t.options (strDrop key 2) rv }) ∧
       parseOption env t key none =
         .ok { t with options := insertOpt t.options (strDrop key 2) "" }) ∧
    (∀ (env : Env) (t : CommandTokenizer) (key v : String),
       strStarts key "--" = false → strStarts key "-" = true →
       parseOption env t key (some v) =
         (match convertFileAndHttpValues env v with
          | .error e => .error e
          | .ok rv => .ok { t with options := insertOpt t.options (strDrop key 1) rv }) ∧
       parseOption env t key none =
         .ok { t with options := insertOpt t.options (strDrop key 1) "" }) ∧
    (∀ (env : Env) (t : CommandTokenizer) (key : String), strStarts key "-" = true →
       ∃ t', optionsLoop env t [key] = .ok t') := by
  refine ⟨?_, ?_, ?_⟩
  · intro env t key v h
    constructor
    · simp only [parseOption, h, if_true, Option.getD_some]
    · simp only [parseOption, h, if_true, Option.getD_none, convert_empty]
  · intro env t key v hdd h
    constructor
    · simp only [parseOption, hdd, Bool.false_eq_true, if_false, h, if_true, Option.getD_some]
    · simp only [parseOption, hdd, Bool.false_eq_true, if_false, h, if_true,
        Option.getD_none, convert_empty]
  · intro env t key h
    simp only [optionsLoop, parseOption, Option.getD_none, convert_empty]
    by_cases hdd : strStarts key "--" = true
    · simp only [hdd, if_true]
      exact ⟨_, rfl⟩
    · simp only [hdd, Bool.false_eq_true, if_false, h, if_true]
      exact ⟨_, rfl⟩

/-- Witness for C5: the long key "--name" with value "x" and the short
key "-n" as the final token of a line. -/
theorem c5_witness :
    parseOption emptyEnv initTokenizer "--name" (some "x") =
      .ok { scopes := [], command := "", options := [("name", "x")], positionals := [] } ∧
    parseOption emptyEnv initTokenizer "-n" none =
      .ok { scopes := [], command := "", options := [("n", "")], positionals := [] } := by
  constructor
  · rw [(c5_option_key_value.1 emptyEnv initTokenizer "--name" "x" rfl).1]
    rfl
  · rw [(c5_option_key_value.2.1 emptyEnv initTokenizer "-n" "" rfl rfl).2]
    rfl

/-! ### Claim C4 -/

theorem scanTokens_dash_before (env : Env) (cmdName : String) :
    ∀ (pre : List String) (tk : String) (post : List String) (t : CommandTokenizer),
      t.command = "" → strStarts tk "-" = true → cmdName ∉ pre → tk ≠ cmdName →
      scanTokens env cmdName t (pre ++ tk :: post) = .error .invalidInput := by
  intro pre
  induction pre with
  | nil =>
    intro tk post t hcmd hdash hpre hne
    have hb : (tk == cmdName) = false := beq_eq_false_iff_ne.mpr hne
    have hc : (t.command == "") = true := by rw [hcmd]; rfl
    simp only [List.nil_append, scanTokens, hb, Bool.false_eq_true, if_false, hdash,
      if_true, hc]
  | cons p pre ih =>
    intro tk post t hcmd hdash hpre hne
    have hp1 : p ≠ cmdName := fun h => hpre (h ▸ List.mem_cons_self _ _)
    have hp2 : cmdName ∉ pre := fun h => hpre (List.mem_cons_of_mem _ h)
    have hb : (p == cmdName) = false := beq_eq_false_iff_ne.mpr hp1
    have hc : (t.command == "") = true := by rw [hcmd]; rfl
    cases hpd : strStarts p "-" with
    | true =>
      simp only [List.cons_append, scanTokens, hb, Bool.false_eq_true, if_false, hpd,
        if_true, hc]
    | false =>
      simp only [List.cons_append, scanTokens, hb, Bool.false_eq_true, if_false, hpd,
        hc, if_true]
      exact ih tk post _ hcmd hdash hp2 hne

/-- C4: a dash-prefixed word occurring before the first occurrence of
the command name makes tokenization of the line fail with the
invalid-input error (the option-before-command rejection), producing no
ParsedInvocation. -/
theorem c4_option_before_command (env : Env) (input cmdName : String)
    (pre : List String) (tk : String) (post : List String)
    (hlex : lex input = some (pre ++ tk :: post))
    (hdash : strStarts tk "-" = true)
    (hpre : cmdName ∉ pre) (hne : tk ≠ cmdName) :
    CommandTokenizer.new env input cmdName = .error .invalidInput := by
  unfold CommandTokenizer.new
  rw [hlex]
  show CommandTokenizer.fromTokens env (pre ++ tk :: post) cmdName = _
  unfold CommandTokenizer.fromTokens
  rw [scanTokens_dash_before env cmdName pre tk post initTokenizer rfl hdash hpre hne]

/-- Witness for C4: the line "-x foo" tokenized against command "foo"
is rejected with the invalid-input error. -/
theorem c4_witness :
    CommandTokenizer.new emptyEnv "-x foo" "foo" = .error .invalidInput :=
  c4_option_before_command emptyEnv "-x foo" "foo" [] "-x" ["foo"] rfl rfl
    (by simp) (by decide)

/-! ### scanTokens lemmas -/

theorem scanTokens_inv (env : Env) (cmdName : String) :
    ∀ (tokens : List String) (t t' : CommandTokenizer) (r : List String),
      scanTokens env cmdName t tokens = .ok (t', r) →
      (∀ s ∈ t'.scopes, s ∈ t.scopes ∨ s ∈ tokens) ∧
      (t'.command = t.command ∨ t'.command ∈ tokens) ∧
      (∀ p ∈ t'.positionals, p ∈ t.positionals ∨ p ∈ tokens) ∧
      ((t.options.map Prod.fst).Nodup → (t'.options.map Prod.fst).Nodup) ∧
      (∀ p ∈ t'.options, p ∈ t.options ∨
        ∃ raw, convertFileAndHttpValues env raw = .ok p.2) := by
  intro tokens
  induction tokens with
  | nil =>
    intro t t' r h
    simp only [scanTokens] at h
    injection h with h
    injection h with h1 h2
    subst h1
    exact ⟨fun s hs => Or.inl hs, Or.inl rfl, fun p hp => Or.inl hp, id,
      fun p hp => Or.inl hp⟩
  | cons token rest ih =>
    intro t t' r h
    simp only [scanTokens] at h
    by_cases htok : (token == cmdName) = true
    · rw [if_pos htok] at h
      obtain ⟨hsc, hcm, hpos, hnd, him⟩ := ih _ _ _ h
      refine ⟨?_, ?_, ?_, hnd, him⟩
      · intro s hs
        rcases hsc s hs with hl | hr
        · exact Or.inl hl
        · exact Or.inr (List.mem_cons_of_mem _ hr)
      · rcases hcm with hl | hr
        · rw [hl]
          exact Or.inr (beq_iff_eq.mp htok ▸ List.mem_cons_self _ _)
        · exact Or.inr (List.mem_cons_of_mem _ hr)
      · intro p hp
        rcases hpos p hp with hl | hr
        · exact Or.inl hl
        · exact Or.inr (List.mem_cons_of_mem _ hr)
    · rw [if_neg htok] at h
      by_cases hdash : strStarts token "-" = true
      · rw [if_pos hdash] at h
        by_cases hemp : (t.command == "") = true
        · rw [if_pos hemp] at h
          exact Except.noConfusion h
        · rw [if_neg hemp] at h
          revert h
          cases hpo : parseOption env t token rest.head? with
          | error e => intro h; exact Except.noConfusion h
          | ok t1 =>
            intro h
            injection h with h
            injection h with h1 h2
            subst h1
            have hf := parseOption_fields hpo
            refine ⟨?_, ?_, ?_, parseOption_nodup hpo, ?_⟩
            · intro s hs
              exact Or.inl (hf.1 ▸ hs)
            · exact Or.inl hf.2.1
            · intro p hp
              exact Or.inl (hf.2.2 ▸ hp)
            · intro p hp
              exact parseOption_image hpo p hp
      · rw [if_neg hdash] at h
        by_cases hemp : (t.command == "") = true
        · rw [if_pos hemp] at h
          obtain ⟨hsc, hcm, hpos, hnd, him⟩ := ih _ _ _ h
          refine ⟨?_, ?_, ?_, hnd, him⟩
          · intro s hs
            rcases hsc s hs with hl | hr
            · rcases List.mem_append.mp hl with hm | hm
              · exact Or.inl hm
              · exact Or.inr (List.mem_singleton.mp hm ▸ List.mem_cons_self _ _)
            · exact Or.inr (List.mem_cons_of_mem _ hr)
          · rcases hcm with hl | hr
            · exact Or.inl hl
            · exact Or.inr (List.mem_cons_of_mem _ hr)
          · intro p hp
            rcases hpos p hp with hl | hr
            · exact Or.inl hl
            · exact Or.inr (List.mem_cons_of_mem _ hr)
        · rw [if_neg hemp] at h
          obtain ⟨hsc, hcm, hpos, hnd, him⟩ := ih _ _ _ h
          refine ⟨?_, ?_, ?_, hnd, him⟩
          · intro s hs
            rcases hsc s hs with hl | hr
            · exact Or.inl hl
            · exact Or.inr (List.mem_cons_of_mem _ hr)
          · rcases hcm with hl | hr
            · exact Or.inl hl
            · exact Or.inr (List.mem_cons_of_mem _ hr)
          · intro p hp
            rcases hpos p hp with hl | hr
            · rcases List.mem_append.mp hl with hm | hm
              · exact Or.inl hm
              · exact Or.inr (List.mem_singleton.mp hm ▸ List.mem_cons_self _ _)
            · exact Or.inr (List.mem_cons_of_mem _ hr)

theorem scanTokens_pair (env1 env2 : Env) (cmdName : String) :
    ∀ (tokens : List String) (t1 t2 t1' t2' : CommandTokenizer) (r1 r2 : List String),
      scanTokens env1 cmdName t1 tokens = .ok (t1', r1) →
      scanTokens env2 cmdName t2 tokens = .ok (t2', r2) →
      t1.scopes = t2.scopes → t1.command = t2.command → t1.positionals = t2.positionals →
      t1'.scopes = t2'.scopes ∧ t1'.command = t2'.command ∧
        t1'.positionals = t2'.positionals ∧ r1 = r2 := by
  intro tokens
  induction tokens with
  | nil =>
    intro t1 t2 t1' t2' r1 r2 h1 h2 hs hc hp
    simp only [scanTokens] at h1 h2
    injection h1 with h1
    injection h1 with h1a h1b
    injection h2 with h2
    injection h2 with h2a h2b
    subst h1a; subst h2a; subst h1b; subst h2b
    exact ⟨hs, hc, hp, rfl⟩
  | cons token rest ih =>
    intro t1 t2 t1' t2' r1 r2 h1 h2 hs hc hp
    simp only [scanTokens] at h1 h2
    by_cases htok : (token == cmdName) = true
    · rw [if_pos htok] at h1 h2
      exact ih _ _ _ _ _ _ h1 h2 hs rfl hp
    · rw [if_neg htok] at h1 h2
      by_cases hdash : strStarts token "-" = true
      · rw [if_pos hdash] at h1 h2
        have hemp : (t1.command == "") = (t2.command == "") := by rw [hc]
        by_cases he1 : (t1.command == "") = true
        · rw [if_pos he1] at h1
          exact Except.noConfusion h1
        · rw [if_neg he1] at h1
          rw [if_neg (hemp ▸ he1)] at h2
          revert h1 h2
          cases hpo1 : parseOption env1 t1 token rest.head? with
          | error e => intro h1 h2; exact Except.noConfusion h1
          | ok u1 =>
            cases hpo2 : parseOption env2 t2 token rest.head? with
            | error e => intro h1 h2; exact Except.noConfusion h2
            | ok u2 =>
              intro h1 h2
              injection h1 with h1
              injection h1 with h1a h1b
              injection h2 with h2
              injection h2 with h2a h2b
              subst h1a; subst h2a; subst h1b; subst h2b
              have hf1 := parseOption_fields hpo1
              have hf2 := parseOption_fields hpo2
              exact ⟨hf1.1.trans (hs.trans hf2.1.symm),
                hf1.2.1.trans (hc.trans hf2.2.1.symm),
                hf1.2.2.trans (hp.trans hf2.2.2.symm), rfl⟩
      · rw [if_neg hdash] at h1 h2
        have hemp : (t1.command == "") = (t2.command == "") := by rw [hc]
        by_cases he1 : (t1.command == "") = true
        · rw [if_pos he1] at h1
          rw [if_pos (hemp ▸ he1)] at h2
          exact ih _ _ _ _ _ _ h1 h2 (by rw [hs]) hc hp
        · rw [if_neg he1] at h1
          rw [if_neg (hemp ▸ he1)] at h2
          exact ih _ _ _ _ _ _ h1 h2 hs hc (by rw [hp])

/-! ### fromTokens lemmas -/

theorem fromTokens_nodup {env : Env} {tokens : List String} {cmdName : String}
    {t : CommandTokenizer} (h : CommandTokenizer.fromTokens env tokens cmdName = .ok t) :
    (t.options.map Prod.fst).Nodup := by
  unfold CommandTokenizer.fromTokens at h
  revert h
  cases hsc : scanTokens env cmdName initTokenizer tokens with
  | error e => intro h; exact Except.noConfusion h
  | ok pr =>
    obtain ⟨t0, rest⟩ := pr
    intro h
    have h0 := (scanTokens_inv env cmdName tokens initTokenizer t0 rest hsc).2.2.2.1
    exact (optionsLoop_inv env t0 rest t h).2.2.2.1 (h0 List.nodup_nil)

/-! ### Claim C1 -/

/-- C1 (amended): a key supplied twice is not rejected: tokenization
succeeds and the later occurrence's resolved value silently overwrites
the earlier one; the resulting option map still has unique keys. -/
theorem c1_duplicate_key_last_wins :
    (∀ (env : Env) (cmd a b ra rb : String), cmd ≠ "" → cmd ≠ "--name" →
       convertFileAndHttpValues env a = .ok ra →
       convertFileAndHttpValues env b = .ok rb →
       CommandTokenizer.fromTokens env [cmd, "--name", a, "--name", b] cmd =
         .ok { scopes := [], command := cmd, options := [("name", rb)],
               positionals := [] }) ∧
    (∀ (env : Env) (tokens : List String) (cmdName : String) (t : CommandTokenizer),
       CommandTokenizer.fromTokens env tokens cmdName = .ok t →
       (t.options.map Prod.fst).Nodup) := by
  constructor
  · intro env cmd a b ra rb hne hnn ha hb
    have h1 : (cmd == cmd) = true := beq_iff_eq.mpr rfl
    have h2 : ("--name" == cmd) = false := beq_eq_false_iff_ne.mpr (Ne.symm hnn)
    have h3 : (cmd == "") = false := beq_eq_false_iff_ne.mpr hne
    have h4 : strStarts "--name" "-" = true := rfl
    have h5 : strStarts "--name" "--" = true := rfl
    have h6 : strDrop "--name" 2 = "name" := rfl
    have h7 : insertOpt [] "name" ra = [("name", ra)] := rfl
    have h8 : insertOpt [("name", ra)] "name" rb = [("name", rb)] := rfl
    simp only [CommandTokenizer.fromTokens, scanTokens, initTokenizer, h1, if_true, h2,
      Bool.false_eq_true, if_false, h4, h3, parseOption, h5, Option.getD_some,
      List.head?_cons, List.tail_cons, ha, optionsLoop, hb, h6, h7, h8]
  · intro env tokens cmdName t h
    exact fromTokens_nodup h

/-- Witness for C1: with the literal command "cmd" and values "a", "b"
the duplicate key resolves to the later value, and the option map of
that result has unique keys. -/
theorem c1_witness :
    CommandTokenizer.fromTokens emptyEnv ["cmd", "--name", "a", "--name", "b"] "cmd" =
      .ok { scopes := [], command := "cmd", options := [("name", "b")],
            positionals := [] } ∧
    (([("name", "b")] : List (String × String)).map Prod.fst).Nodup :=
  ⟨c1_duplicate_key_last_wins.1 emptyEnv "cmd" "a" "b" "a" "b" (by decide) (by decide)
      rfl rfl,
   c1_duplicate_key_last_wins.2 emptyEnv ["cmd", "--name", "a", "--name", "b"] "cmd"
      { scopes := [], command := "cmd", options := [("name", "b")], positionals := [] }
      (c1_duplicate_key_last_wins.1 emptyEnv "cmd" "a" "b" "a" "b" (by decide) (by decide)
        rfl rfl)⟩

/-! ### Claim C7 -/

/-- C7: value dereferencing is applied to every option value and only to
option values: a value with none of the three prefixes is returned
unchanged; the scope path, the command word and the positional list of a
successful tokenization do not depend on the dereference environment and
are tokens of the input stored verbatim; and every stored option value
is an output of the value resolver. -/
theorem c7_deref_only_option_values :
    (∀ (env : Env) (v : String), strStarts v "http://" = false →
       strStarts v "https://" = false → strStarts v "file://" = false →
       convertFileAndHttpValues env v = .ok v) ∧
    (∀ (env1 env2 : Env) (tokens : List String) (cmdName : String)
       (t1 t2 : CommandTokenizer),
       CommandTokenizer.fromTokens env1 tokens cmdName = .ok t1 →
       CommandTokenizer.fromTokens env2 tokens cmdName = .ok t2 →
       t1.scopes = t2.scopes ∧ t1.command = t2.command ∧
         t1.positionals = t2.positionals) ∧
    (∀ (env : Env) (tokens : List String) (cmdName : String) (t : CommandTokenizer),
       CommandTokenizer.fromTokens env tokens cmdName = .ok t →
       (∀ s ∈ t.scopes, s ∈ tokens) ∧ (t.command = "" ∨ t.command ∈ tokens) ∧
       (∀ p ∈ t.positionals, p ∈ tokens) ∧
       (∀ p ∈ t.options, ∃ raw, convertFileAndHttpValues env raw = .ok p.2)) := by
  refine ⟨?_, ?_, ?_⟩
  · intro env v h1 h2 h3
    simp only [convertFileAndHttpValues, h1, h2, h3, Bool.or_self, Bool.false_eq_true,
      if_false]
  · intro env1 env2 tokens cmdName t1 t2 h1 h2
    unfold CommandTokenizer.fromTokens at h1 h2
    revert h1 h2
    cases hs1 : scanTokens env1 cmdName initTokenizer tokens with
    | error e => intro h1 h2; exact Except.noConfusion h1
    | ok pr1 =>
      cases hs2 : scanTokens env2 cmdName initTokenizer tokens with
      | error e => intro h1 h2; exact Except.noConfusion h2
      | ok pr2 =>
        obtain ⟨u1, r1⟩ := pr1
        obtain ⟨u2, r2⟩ := pr2
        intro h1 h2
        obtain ⟨hs, hc, hp, hr⟩ :=
          scanTokens_pair env1 env2 cmdName tokens initTokenizer initTokenizer u1 u2 r1 r2
            hs1 hs2 rfl rfl rfl
        have hf1 := optionsLoop_inv env1 u1 r1 t1 h1
        have hf2 := optionsLoop_inv env2 u2 r2 t2 (hr ▸ h2)
        exact ⟨hf1.1.trans (hs.trans hf2.1.symm), hf1.2.1.trans (hc.trans hf2.2.1.symm),
          hf1.2.2.1.trans (hp.trans hf2.2.2.1.symm)⟩
  · intro env tokens cmdName t h
    unfold CommandTokenizer.fromTokens at h
    revert h
    cases hsc : scanTokens env cmdName initTokenizer tokens with
    | error e => intro h; exact Except.noConfusion h
    | ok pr =>
      obtain ⟨t0, rest⟩ := pr
      intro h
      obtain ⟨hsc1, hsc2, hsc3, _, hsc5⟩ :=
        scanTokens_inv env cmdName tokens initTokenizer t0 rest hsc
      obtain ⟨hol1, hol2, hol3, _, hol5⟩ := optionsLoop_inv env t0 rest t h
      refine ⟨?_, ?_, ?_, ?_⟩
      · intro s hs
        rcases hsc1 s (hol1 ▸ hs) with hm | hm
        · exact absurd hm (List.not_mem_nil s)
        · exact hm
      · rcases hsc2 with hm | hm
        · exact Or.inl (hol2.trans hm)
        · exact Or.inr (hol2 ▸ hm)
      · intro p hp
        rcases hsc3 p (hol3 ▸ hp) with hm | hm
        · exact absurd hm (List.not_mem_nil p)
        · exact hm
      · intro p hp
        rcases hol5 p hp with hm | hm
        · rcases hsc5 p hm with hm2 | hm2
          · exact absurd hm2 (List.not_mem_nil p)
          · exact hm2
        · exact hm

/-- Witness for C7: an unprefixed value passes through the resolver
unchanged, and the tokenization of "ns list -n x" has the same scopes,
command and positionals under the empty and the demo environments, with
its option value in the resolver image. -/
theorem c7_witness :
    convertFileAndHttpValues emptyEnv "x" = .ok "x" ∧
    (CommandTokenizer.fromTokens emptyEnv ["ns", "list", "-n", "x"] "list" =
      .ok { scopes := ["ns"], command := "list", options := [("n", "x")],
            positionals := [] }) :=
  ⟨(c7_deref_only_option_values.1 emptyEnv "x" rfl rfl rfl), rfl⟩

/-! ### Claim C3 -/

/-- C3: for a line that resolves to a command and tokenizes with a
"help" or "h" key in its option map, dispatch selects the help/usage
rendering instead of the command's execution contract and returns
success, whatever else is on the line and whatever the execution
contract would do. -/
theorem c3_help_selects_help (env : Env) (cmd : CliCommandEntry) (cmdName line : String)
    (context : List String) (toks : CommandTokenizer)
    (htok : CommandTokenizer.new env line cmdName = .ok toks)
    (hhelp : (containsKey toks.options "help" || containsKey toks.options "h") = true) :
    executeCommand env cmd cmdName line context = .ok () := by
  unfold executeCommand
  rw [htok]
  show (if containsKey toks.options "help" || containsKey toks.options "h" then
      helpRender cmdName context
    else cmd.execute env toks) = .ok ()
  rw [hhelp]
  rfl

/-- Witness for C3: "foo --help" on a command whose execution contract
fails still dispatches to help and succeeds. -/
theorem c3_witness : executeCommand emptyEnv failEntry "foo" "foo --help" [] = .ok () :=
  c3_help_selects_help emptyEnv failEntry "foo" "foo --help" []
    { scopes := [], command := "foo", options := [("help", "")], positionals := [] }
    rfl rfl

/-! ### Claim C6 -/

theorem isPrefixOf_append (l r : List Char) : l.isPrefixOf (l ++ r) = true := by
  induction l with
  | nil => simp [List.isPrefixOf]
  | cons a as ih => simp [List.isPrefixOf, ih]

/-- C6: a value of the form file://P is resolved by stripping the
prefix and reading file P, returning its contents with trailing
whitespace trimmed; a missing or unreadable file fails with the
I/O-kind error. -/
theorem c6_file_value_resolution (env : Env) (path contents errMsg : String) :
    (env.fs path = .ok contents →
      convertFileAndHttpValues env ("file://" ++ path) = .ok (trimEnd contents)) ∧
    (env.fs path = .error errMsg →
      convertFileAndHttpValues env ("file://" ++ path) = .error (.ioError errMsg)) := by
  have hdata : ("file://" ++ path).data =
      'f' :: 'i' :: 'l' :: 'e' :: ':' :: '/' :: '/' :: path.data := by
    rw [strData_append]
    rfl
  have h1 : strStarts ("file://" ++ path) "http://" = false := by
    unfold strStarts
    rw [hdata]
    rfl
  have h2 : strStarts ("file://" ++ path) "https://" = false := by
    unfold strStarts
    rw [hdata]
    rfl
  have h3 : strStarts ("file://" ++ path) "file://" = true := by
    unfold strStarts
    rw [strData_append]
    exact isPrefixOf_append "file://".data path.data
  have h4 : strDrop ("file://" ++ path) 7 = path := by
    unfold strDrop
    rw [hdata]
    rfl
  constructor
  · intro h
    simp only [convertFileAndHttpValues, h1, h2, Bool.or_self, Bool.false_eq_true,
      if_false, h3, if_true, h4, h]
  · intro h
    simp only [convertFileAndHttpValues, h1, h2, Bool.or_self, Bool.false_eq_true,
      if_false, h3, if_true, h4, h]

/-- Witness for C6: in the demo environment the file "p" contains
"hello" with a trailing newline, so file://p resolves to "hello", while
file://q fails with the I/O error. -/
theorem c6_witness :
    demoFsEnv.fs "p" = .ok "hello\n" ∧
    convertFileAndHttpValues demoFsEnv ("file://" ++ "p") = .ok (trimEnd "hello\n") ∧
    trimEnd "hello\n" = "hello" ∧
    convertFileAndHttpValues demoFsEnv ("file://" ++ "q") =
      .error (.ioError "No such file or directory") :=
  ⟨rfl, (c6_file_value_resolution demoFsEnv "p" "hello\n" "").1 rfl, rfl,
   (c6_file_value_resolution demoFsEnv "q" "" "No such file or directory").2 rfl⟩

/-! ### Claim C8 -/

theorem processFilter_isOk (line : String) (st : OutputState) :
    ∃ pr, processFilter line st = .ok pr := by
  unfold processFilter
  split
  · exact ⟨_, rfl⟩
  · exact ⟨_, rfl⟩

theorem processLineAsCommand_ok (env : Env) (cli : CommandList) (line : String)
    (st : OutputState) :
    processLineAsCommand env cli line st = .ok (processLineRun env cli st line) := by
  obtain ⟨pr, hpf⟩ := processFilter_isOk line st
  unfold processLineRun processLineAsCommand
  rw [hpf]

/-- C8: batch lines are processed strictly in order and a failure
processing one line never aborts the remaining lines — every processed
line yields a success result, and running a batch of readable lines
equals the left fold of per-line processing over the file order; only an
I/O error opening the source or reading a line is fatal, aborting with
the I/O error. -/
theorem c8_batch_processing :
    (∀ (env : Env) (cli : CommandList) (line : String) (st : OutputState),
       processLineAsCommand env cli line st = .ok (processLineRun env cli st line)) ∧
    (∀ (env : Env) (cli : CommandList) (lines : List String) (st : OutputState),
       sourceCommandsFromFile env cli (.ok (lines.map Except.ok)) st =
         .ok (lines.foldl (processLineRun env cli) st)) ∧
    (∀ (env : Env) (cli : CommandList) (e : String) (st : OutputState),
       sourceCommandsFromFile env cli (.error e) st = .error (.ioError e)) ∧
    (∀ (env : Env) (cli : CommandList) (lines : List String) (e : String)
       (rest : List (Except String String)) (st : OutputState),
       sourceCommandsFromFile env cli (.ok (lines.map Except.ok ++ .error e :: rest)) st =
         .error (.ioError e)) := by
  have hgo : ∀ (env : Env) (cli : CommandList) (lines : List String) (st : OutputState),
      sourceLines env cli (lines.map Except.ok) st =
        .ok (lines.foldl (processLineRun env cli) st) := by
    intro env cli lines
    induction lines with
    | nil => intro st; rfl
    | cons l ls ih =>
      intro st
      show sourceLines env cli (Except.ok l :: ls.map Except.ok) st = _
      simp only [sourceLines, processLineAsCommand_ok env cli l st, List.foldl_cons]
      exact ih (processLineRun env cli st l)
  have habort : ∀ (env : Env) (cli : CommandList) (lines : List String) (e : String)
      (rest : List (Except String String)) (st : OutputState),
      sourceLines env cli (lines.map Except.ok ++ .error e :: rest) st =
        .error (.ioError e) := by
    intro env cli lines e rest
    induction lines with
    | nil => intro st; rfl
    | cons l ls ih =>
      intro st
      show sourceLines env cli (Except.ok l :: (ls.map Except.ok ++ .error e :: rest)) st = _
      simp only [sourceLines, processLineAsCommand_ok env cli l st]
      exact ih (processLineRun env cli st l)
  exact ⟨processLineAsCommand_ok,
    fun env cli lines st => hgo env cli lines st,
    fun env cli e st => rfl,
    fun env cli lines e rest st => habort env cli lines e rest st⟩
